import Mathlib

/-!
Shallow embedding of `minilisp.py`, a minimal Lisp interpreter, together
with theorems settling the specification claims about it.

Modelling conventions:
* Python's value universe `LispObject = str | int | Pair | None | FunctionType`
  becomes the inductive `LispObject` below; strings are `List Char`, the unique
  `None` is `LispObject.nil`, and function objects are indices into a table of
  procedure definitions carried in the interpreter state (Python closures are
  shared heap objects; the table models that heap, so that `define` mutations
  of a captured frame stay visible to every holder).
* Python exceptions become an `Err` sum returned through `Except`.
* Recursive interpreters take a structural fuel argument (an embedding
  artifact, see `Err.fuelOut`) and, for the evaluator, a separate `depth`
  argument modelling the remaining native call depth before CPython's
  RecursionError: nested `eval_lisp` calls and procedure invocations cost one
  level each, while the source's `while` loops run inside the current frame
  and cost none.
-/

namespace Minilisp

inductive LispObject where
  | sym : List Char → LispObject
  | num : Int → LispObject
  | nil : LispObject
  | pair : LispObject → LispObject → LispObject
  | proc : Nat → LispObject
deriving DecidableEq, Repr

/-- Host-level outcomes. `fuelOut` is an artifact of the fueled embedding;
every concrete run in this file uses fuel large enough that it cannot arise,
and theorems quantify over the fuel. The other constructors model the Python
exceptions the source can raise: SyntaxError (`Reader._expect`),
AttributeError (a method call on the `None` lookahead token, and
`ex.__args__` in the lambda handler), TypeError (subscripting or unpacking a
non-pair, calling a non-callable, arithmetic on non-integers),
UnboundLocalError (reading a local before assignment), RecursionError
(exceeding the native recursion limit), IndexError (indexing an empty
string). `tailRecSignal` models the `TailRecursion` control exception of
line 14; `ioEffect` stands for the input/output performed by the `load`,
`write` and `read` builtins, which no claim exercises. -/
inductive Err where
  | syntaxErr : Err
  | attrError : Err
  | typeError : Err
  | unboundLocal : Err
  | recursionError : Err
  | indexError : Err
  | ioEffect : Err
  | fuelOut : Err
  | tailRecSignal : LispObject → Err
deriving DecidableEq, Repr

/-! ### Lexer (lines 149-153)

The scanner regex is `\(|\)|\'|\.|\s+|\d+|[^\(\)\'\.\s\d]+`: four one-char
delimiter tokens, whitespace runs (dropped by the `isspace` filter), digit
runs, and maximal runs of the remaining characters. `Char.isDigit` and
`Char.isWhitespace` model `\d` and `\s`; the embedding works in the ASCII
fragment, where they agree with Python's character classes. -/

def delimChar (c : Char) : Bool := c = '(' || c = ')' || c = '\'' || c = '.'

def atomChar (c : Char) : Bool := !(delimChar c) && !c.isWhitespace && !c.isDigit

/-- The partially accumulated token of the scanner position. -/
inductive PartTok where
  | digits : List Char → PartTok
  | atom : List Char → PartTok
deriving DecidableEq, Repr

def flushTok : Option PartTok → List (List Char)
  | none => []
  | some (.digits t) => [t]
  | some (.atom t) => [t]

/-- Character-at-a-time rendering of the scanner's maximal munch. -/
def lexAux : Option PartTok → List Char → List (List Char)
  | cur, [] => flushTok cur
  | cur, c :: cs =>
    if delimChar c then flushTok cur ++ [c] :: lexAux none cs
    else if c.isWhitespace then flushTok cur ++ lexAux none cs
    else if c.isDigit then
      match cur with
      | some (.digits t) => lexAux (some (.digits (t ++ [c]))) cs
      | other => flushTok other ++ lexAux (some (.digits [c])) cs
    else
      match cur with
      | some (.atom t) => lexAux (some (.atom (t ++ [c]))) cs
      | other => flushTok other ++ lexAux (some (.atom [c])) cs

def lexer (code : List Char) : List (List Char) := lexAux none code

/-! ### Integer literals -/

def digitVal (c : Char) : Nat := c.toNat - 48

def digitChar (n : Nat) : Char := Char.ofNat (48 + n)

/-- `int(token)` on an all-digit token. -/
def digitsToNat (ds : List Char) : Nat := ds.foldl (fun a c => a * 10 + digitVal c) 0

/-- `token.isnumeric()` for the tokens this lexer produces (ASCII fragment). -/
def isnumeric (t : List Char) : Bool := !t.isEmpty && t.all Char.isDigit

/-- `str(n)` for a natural number; the fuel only needs to exceed the number
of digits, which `n + 1` always does. -/
def natDigitsAux : Nat → Nat → List Char → List Char
  | 0, _, acc => acc
  | f + 1, n, acc =>
    if n < 10 then digitChar n :: acc
    else natDigitsAux f (n / 10) (digitChar (n % 10) :: acc)

def natDigits (n : Nat) : List Char := natDigitsAux (n + 1) n []

/-- `str(n)` for integers. -/
def intChars : Int → List Char
  | .ofNat n => natDigits n
  | .negSucc n => '-' :: natDigits (n + 1)

/-! ### `reverse` (lines 91-96)

Generalized over the seed, as used by the reader (line 195), by the
dotted-tail prepend loop (lines 189-191) and by the argument re-reversal
loop (lines 73-76). Unpacking a non-pair, non-None chain cell would be a
TypeError in Python; every call site passes a proper chain built by a
sibling loop, so that branch simply returns the accumulator here. -/
def revApp : LispObject → LispObject → LispObject
  | .pair car rest, acc => revApp rest (.pair car acc)
  | _, acc => acc

def reverse (ls : LispObject) : LispObject := revApp ls .nil

/-! ### Reader (lines 155-201)

`Reader.form` is a recursive-descent parser with one-token lookahead; the
Python object keeps the lookahead in `self.next`, here the unconsumed token
list plays that role, and `_accept` is the `accept` helper below. At end of
input every `_accept` fails and `form` falls through to `self._advance()`
followed by `self.token.isnumeric()` with `self.token = None`: an
AttributeError, not a SyntaxError. Each `form`/`listTail` step consumes a
token within two calls, so the `2 * length + 4` fuel budget used by `read`
can never run out. -/

def accept (tok : List Char) (ts : List (List Char)) : Option (List (List Char)) :=
  match ts with
  | t :: rest => if t = tok then some rest else none
  | [] => none

mutual

def form (fuel : Nat) (ts : List (List Char)) :
    Except Err (LispObject × List (List Char)) :=
  match fuel with
  | 0 => .error .fuelOut
  | f + 1 =>
    match accept ['('] ts with
    | some rest => listTail f .nil rest
    | none =>
      match accept ['\''] ts with
      | some rest => do
        let (v, rest') ← form f rest
        pure (.pair (.sym "quote".data) (.pair v .nil), rest')
      | none =>
        match ts with
        | t :: rest =>
          if isnumeric t then pure (.num (Int.ofNat (digitsToNat t)), rest)
          else pure (.sym t, rest)
        | [] => .error .attrError
  termination_by structural fuel

/-- The element loop of `form` (lines 185-195): elements are consed onto
`acc` in reverse order and the chain is reversed at the closing parenthesis;
a dotted tail is prepended onto the reversed prefix, after which
`_expect(')')` raises SyntaxError when the closing token is absent. -/
def listTail (fuel : Nat) (acc : LispObject) (ts : List (List Char)) :
    Except Err (LispObject × List (List Char)) :=
  match fuel with
  | 0 => .error .fuelOut
  | f + 1 =>
    match accept [')'] ts with
    | some rest => pure (revApp acc .nil, rest)
    | none =>
      match accept ['.'] ts with
      | some after => do
        let (v, rest) ← form f after
        match accept [')'] rest with
        | some rest' => pure (revApp acc v, rest')
        | none => .error .syntaxErr
      | none => do
        let (v, rest) ← form f ts
        listTail f (.pair v acc) rest
  termination_by structural fuel

end

/-- `Reader.read` (lines 160-163): lex, then parse a single form (any
leftover tokens are simply not consumed). -/
def read (code : List Char) : Except Err LispObject :=
  (form (2 * (lexer code).length + 4) (lexer code)).map Prod.fst

/-- `Reader.read_many` (lines 165-168): `iter(self.form, None)` calls `form`
repeatedly until it returns the sentinel `None`; an empty-list form is that
sentinel, so it stops the iteration without being yielded, and at end of
input `form` raises AttributeError instead of producing the sentinel. The
outer fuel bounds the number of top-level forms. -/
def readManyAux (fuel : Nat) (ts : List (List Char)) : Except Err (List LispObject) :=
  match fuel with
  | 0 => .error .fuelOut
  | f + 1 => do
    let (v, rest) ← form (2 * ts.length + 4) ts
    if v = .nil then pure []
    else do
      let vs ← readManyAux f rest
      pure (v :: vs)

def read_many (code : List Char) : Except Err (List LispObject) :=
  readManyAux ((lexer code).length + 1) (lexer code)

/-! ### Printer (lines 98-115)

The tuple case of `repr_lisp` collects the printed elements of the cdr
chain and then appends a literal dot and the printed terminal only when the
terminal is a *string* (`isinstance(datum, str)`, line 113); any other
non-None terminal is silently dropped. `reprRest` renders the space-joined
continuation of a chain, mirroring `' '.join`. -/

mutual

def repr_lisp : LispObject → List Char
  | .proc _ => "<procedure>".data
  | .sym s => s
  | .num n => intChars n
  | .nil => "()".data
  | .pair car rest => '(' :: (repr_lisp car ++ reprRest rest) ++ [')']

def reprRest : LispObject → List Char
  | .pair car rest => ' ' :: repr_lisp car ++ reprRest rest
  | .sym s => ' ' :: '.' :: ' ' :: s
  | _ => []

end

/-! ### Procedures, frames and interpreter state -/

inductive NativeId where
  | car | cdr | cons | eqv | symbolP | loadB | writeB | readB | plus | minus | times
deriving DecidableEq, Repr

/-- A procedure object: a closure captures the lambda list, the body chain
(`nil` models the Python `None` of an empty body, line 50), the defining
scope and the `tail` flag of the `eval_lisp` call that created it
(lines 49-67); a native is one of the `base_scope` builtins. -/
inductive ProcDef where
  | closure : LispObject → LispObject → Option Nat → Bool → ProcDef
  | native : NativeId → ProcDef
deriving DecidableEq, Repr

/-- One binding frame: the dict of a Python scope tuple plus the parent
link. Keys are `LispObject` because `match_args` can bind a non-string
parameter "name" (any hashable works as a dict key). -/
structure Frame where
  entries : List (LispObject × LispObject)
  parent : Option Nat
deriving DecidableEq, Repr

/-- The mutable heap of the interpreter: every frame and every procedure
object ever created, addressed by index, so that `define` mutations of a
shared frame are visible through every capture of it. -/
structure Store where
  frames : List Frame
  procs : List ProcDef
deriving DecidableEq, Repr

/-- Python dict assignment: overwrite the binding if the key is present,
otherwise append it. -/
def setEntry (es : List (LispObject × LispObject)) (k v : LispObject) :
    List (LispObject × LispObject) :=
  match es with
  | [] => [(k, v)]
  | (k', v') :: rest => if k' = k then (k, v) :: rest else (k', v') :: setEntry rest k v

/-- Python dict lookup (`k in d` / `d[k]`). -/
def getEntry (es : List (LispObject × LispObject)) (k : LispObject) : Option LispObject :=
  match es with
  | [] => none
  | (k', v') :: rest => if k' = k then some v' else getEntry rest k

def frameSet (st : Store) (i : Nat) (k v : LispObject) : Store :=
  match st.frames.get? i with
  | none => st
  | some fr => { st with frames := st.frames.set i { fr with entries := setEntry fr.entries k v } }

def allocFrame (st : Store) (entries : List (LispObject × LispObject))
    (parent : Option Nat) : Nat × Store :=
  (st.frames.length, { st with frames := st.frames ++ [⟨entries, parent⟩] })

def allocProc (st : Store) (p : ProcDef) : Nat × Store :=
  (st.procs.length, { st with procs := st.procs ++ [p] })

/-- The symbol case of `eval_lisp` (lines 20-25): walk the scope chain
outward; the first frame whose dict contains the name wins; fall off the end
of the chain to `None`. The chains built by the evaluator are acyclic (a
frame's parent always pre-exists it), so the `frames.length + 1` budget used
at the call site cannot be exhausted there. -/
def lookupLoop (st : Store) : Nat → Option Nat → List Char → LispObject
  | 0, _, _ => .nil
  | _ + 1, none, _ => .nil
  | f + 1, some i, name =>
    match st.frames.get? i with
    | none => .nil
    | some fr =>
      match getEntry fr.entries (.sym name) with
      | some v => v
      | none => lookupLoop st f fr.parent name

/-! ### `match_args` (lines 81-89)

`name` is the Python local holding the most recently unpacked parameter;
after the pairwise loop the source writes `scope[0][name] = args` — binding
the *last pairwise parameter*, not the tail symbol — and when the loop never
ran, `name` was never assigned, so reading it raises UnboundLocalError.
Exhausting the argument list inside the loop is the TypeError of unpacking
`None`. (CPython would "unpack" a two-character string; the evaluator only
ever passes proper argument chains, so that corner is rendered as the same
TypeError.) -/

def matchArgsLoop :
    LispObject → LispObject → List (LispObject × LispObject) → Option LispObject →
    Except Err (List (LispObject × LispObject))
  | .pair name rest, args, es, _ =>
    match args with
    | .pair car args' => matchArgsLoop rest args' (setEntry es name car) (some name)
    | _ => .error .typeError
  | .sym _, args, es, lastName =>
    match lastName with
    | some name => .ok (setEntry es name args)
    | none => .error .unboundLocal
  | _, _, es, _ => .ok es

def match_args (lambda_list args : LispObject) (scope : Option Nat) (st : Store) :
    Except Err (Nat × Store) := do
  let es ← matchArgsLoop lambda_list args [] none
  pure (allocFrame st es scope)

/-! ### Builtins (lines 117-147)

Native procedures receive the already-evaluated argument chain. `sum` and
`product` over `iter_list` demand integers (any other operand raises
TypeError; the sequence-repetition corner of `int * str` falls outside the
`LispObject` universe and no claim exercises `*`). `car`/`cdr` subscript
their argument, which on a string yields a one-character string and on an
empty/short string raises IndexError; on `None` or an integer, TypeError.
`load`, `write` and `read` perform host input/output, modelled as the opaque
`ioEffect` outcome. -/

def iterSum : LispObject → Except Err Int
  | .nil => pure 0
  | .pair (.num n) rest => do
    let s ← iterSum rest
    pure (n + s)
  | _ => .error .typeError

def iterProd : LispObject → Except Err Int
  | .nil => pure 1
  | .pair (.num n) rest => do
    let p ← iterProd rest
    pure (n * p)
  | _ => .error .typeError

def applyNative (nid : NativeId) (args : LispObject) (st : Store) :
    Except Err (LispObject × Store) :=
  match nid with
  | .car =>
    match args with
    | .pair a _ =>
      match a with
      | .pair x _ => pure (x, st)
      | .sym (c :: _) => pure (.sym [c], st)
      | .sym [] => .error .indexError
      | _ => .error .typeError
    | _ => .error .typeError
  | .cdr =>
    match args with
    | .pair a _ =>
      match a with
      | .pair _ y => pure (y, st)
      | .sym (_ :: c :: _) => pure (.sym [c], st)
      | .sym _ => .error .indexError
      | _ => .error .typeError
    | _ => .error .typeError
  | .cons =>
    match args with
    | .pair a (.pair b _) => pure (.pair a b, st)
    | _ => .error .typeError
  | .eqv =>
    match args with
    | .pair a (.pair b _) =>
      if a = .nil && b = .nil then pure (.sym ['t'], st)
      else
        match a, b with
        | .sym x, .sym y => if x = y then pure (.sym ['t'], st) else pure (.nil, st)
        | _, _ => pure (.nil, st)
    | _ => .error .typeError
  | .symbolP =>
    match args with
    | .pair (.sym _) _ => pure (.sym ['t'], st)
    | .pair _ _ => pure (.nil, st)
    | _ => .error .typeError
  | .loadB => .error .ioEffect
  | .writeB => .error .ioEffect
  | .readB => .error .ioEffect
  | .plus => do
    let s ← iterSum args
    pure (.num s, st)
  | .minus =>
    match args with
    | .pair a rest =>
      match rest with
      | .nil =>
        match a with
        | .num n => pure (.num (-n), st)
        | _ => .error .typeError
      | .pair _ _ => do
        let s ← iterSum rest
        match a with
        | .num n => pure (.num (n - s), st)
        | _ => .error .typeError
      | _ => .error .typeError
    | _ => .error .typeError
  | .times => do
    let p ← iterProd args
    pure (.num p, st)

def baseProcs : List ProcDef :=
  [.native .car, .native .cdr, .native .cons, .native .eqv, .native .symbolP,
   .native .loadB, .native .writeB, .native .readB, .native .plus,
   .native .minus, .native .times]

/-- `base_scope` (lines 135-147): the outermost frame, binding the builtin
names to the native procedure objects. -/
def base_scope : Frame :=
  ⟨[(.sym "car".data, .proc 0), (.sym "cdr".data, .proc 1), (.sym "cons".data, .proc 2),
    (.sym "=".data, .proc 3), (.sym "symbol?".data, .proc 4), (.sym "load".data, .proc 5),
    (.sym "write".data, .proc 6), (.sym "read".data, .proc 7), (.sym "+".data, .proc 8),
    (.sym "-".data, .proc 9), (.sym "*".data, .proc 10)], none⟩

/-- The store at startup: the builtins frame plus one fresh global frame
over it, as created by `load` (line 128) and by the REPL (line 205). -/
def initStore : Store := ⟨[base_scope, ⟨[], some 0⟩], baseProcs⟩

def initScope : Option Nat := some 1

/-! ### The special-form patterns (lines 26, 29, 33, 35, 49)

The `match` statement of `eval_lisp` tries these patterns in order; a pair
matching none of them falls through to the application case of line 68. -/

inductive SpecialForm where
  | defineF : List Char → LispObject → SpecialForm
  | ifF : LispObject → LispObject → LispObject → SpecialForm
  | quoteF : LispObject → SpecialForm
  | letF : LispObject → LispObject → SpecialForm
  | lambdaF : LispObject → LispObject → SpecialForm
deriving DecidableEq, Repr

def specialShape : LispObject → LispObject → Option SpecialForm
  | .sym s, rest =>
    if s = "define".data then
      match rest with
      | .pair (.sym name) (.pair value .nil) => some (.defineF name value)
      | _ => none
    else if s = "if".data then
      match rest with
      | .pair t (.pair b (.pair e .nil)) => some (.ifF t b e)
      | _ => none
    else if s = "quote".data then
      match rest with
      | .pair d .nil => some (.quoteF d)
      | _ => none
    else if s = "let".data then
      match rest with
      | .pair vars body => some (.letF vars body)
      | _ => none
    else if s = "lambda".data then
      match rest with
      | .pair ll body => some (.lambdaF ll body)
      | _ => none
    else none
  | _, _ => none

/-! ### The evaluator (lines 16-79) -/

mutual

/-- `eval_lisp`. `fuel` is the structural-recursion artifact; `depth` models
the remaining native call depth (see the module comment). The application
case evaluates the arguments in source order onto a reversed accumulator,
re-reverses them, evaluates the operator, and calls the resulting value. -/
def eval_lisp (fuel depth : Nat) (stx : LispObject) (scope : Option Nat)
    (st : Store) (tail : Bool) : Except Err (LispObject × Store) :=
  match fuel with
  | 0 => .error .fuelOut
  | f + 1 =>
    match depth with
    | 0 => .error .recursionError
    | d + 1 =>
      match stx with
      | .num n => pure (.num n, st)
      | .sym name => pure (lookupLoop st (st.frames.length + 1) scope name, st)
      | .pair h t =>
        match specialShape h t with
        | some (.defineF name value) =>
          match scope with
          | none => .error .typeError
          | some i => do
            let (v, st1) ← eval_lisp f d value scope st false
            pure (.nil, frameSet st1 i (.sym name) v)
        | some (.ifF tst thn els) => do
          let (v, st1) ← eval_lisp f d tst scope st false
          if v ≠ .nil then eval_lisp f d thn scope st1 tail
          else eval_lisp f d els scope st1 tail
        | some (.quoteF datum) => pure (datum, st)
        | some (.letF vars body) =>
          if body = .nil then pure (.nil, st)
          else
            let (j, st1) := allocFrame st [] scope
            do
              match ← evalLetVars f d vars j st1 with
              | (false, st2) => pure (.nil, st2)
              | (true, st2) => evalBody f d body (some j) st2 tail
        | some (.lambdaF ll body) =>
          let (pid, st1) := allocProc st (.closure ll body scope tail)
          pure (.proc pid, st1)
        | none => do
          let (accRev, st1) ← evalArgsRev f d t .nil scope st
          let (fv, st2) ← eval_lisp f d h scope st1 false
          apply_proc f d fv (revApp accRev .nil) st2
      | _ => pure (.nil, st)
  termination_by structural fuel

/-- The binding loop of `let` (lines 39-44), sequential (`let*`) semantics:
each value is evaluated with the new frame already in scope, then bound into
it. `true` means proceed to the body; `false` renders the `return None` of a
malformed binding entry. -/
def evalLetVars (fuel depth : Nat) (vars : LispObject) (j : Nat) (st : Store) :
    Except Err (Bool × Store) :=
  match fuel with
  | 0 => .error .fuelOut
  | f + 1 =>
    match vars with
    | .nil => pure (true, st)
    | .pair (.pair (.sym name) (.pair value .nil)) rest => do
      let (v, st1) ← eval_lisp f depth value (some j) st false
      evalLetVars f depth rest j (frameSet st1 j (.sym name) v)
    | _ => pure (false, st)
  termination_by structural fuel

/-- The body loops of `let` (lines 45-48) and of a closure (lines 59-64):
run every expression but the last for effect, evaluate the last one with the
given tail flag; subscripting a non-pair continuation cell is TypeError. -/
def evalBody (fuel depth : Nat) (body : LispObject) (scope : Option Nat)
    (st : Store) (tail : Bool) : Except Err (LispObject × Store) :=
  match fuel with
  | 0 => .error .fuelOut
  | f + 1 =>
    match body with
    | .pair expr rest =>
      if rest = .nil then eval_lisp f depth expr scope st tail
      else do
        let (_, st1) ← eval_lisp f depth expr scope st false
        evalBody f depth rest scope st1 tail
    | _ => .error .typeError
  termination_by structural fuel

/-- The argument loop of the application case (lines 69-72): evaluate each
argument in source order, consing the results onto `acc` (so `acc` ends up
in reverse order); an improper argument tail is the TypeError of unpacking a
non-pair. -/
def evalArgsRev (fuel depth : Nat) (args acc : LispObject) (scope : Option Nat)
    (st : Store) : Except Err (LispObject × Store) :=
  match fuel with
  | 0 => .error .fuelOut
  | f + 1 =>
    match args with
    | .nil => pure (acc, st)
    | .pair a rest => do
      let (v, st1) ← eval_lisp f depth a scope st false
      evalArgsRev f depth rest (.pair v acc) scope st1
    | _ => .error .typeError
  termination_by structural fuel

/-- Line 77 calls the evaluated operator value; a non-procedure value is the
TypeError of calling `None`/an integer/a pair. Invoking a closure
(lines 51-66) enters a new native frame, hence one `depth` level. When the
closure's captured `tail` flag is true, line 54 reads the local
`current_procedure` before its line-56 assignment (the function assigns the
name without a `global` declaration, so the module-level variable of line 12
is shadowed — and, in consequence, never updated by anyone): an
UnboundLocalError. When the flag is false the conjunction of line 54
short-circuits, so `TailRecursion` (line 55) is never raised; should the
signal nevertheless reach the line-65 handler, `ex.__args__` would itself
raise AttributeError (`BaseException` exposes `args`, not `__args__`), which
is how the handler is rendered here. -/
def apply_proc (fuel depth : Nat) (fv args : LispObject) (st : Store) :
    Except Err (LispObject × Store) :=
  match fuel with
  | 0 => .error .fuelOut
  | f + 1 =>
    match fv with
    | .proc pid =>
      match st.procs.get? pid with
      | none => .error .typeError
      | some (.native nid) => applyNative nid args st
      | some (.closure ll body scope tailFlag) =>
        match depth with
        | 0 => .error .recursionError
        | d + 1 =>
          if body = .nil then pure (.nil, st)
          else if tailFlag then .error .unboundLocal
          else do
            let (j, st1) ← match_args ll args scope st
            match evalBody f d body (some j) st1 tailFlag with
            | .error (.tailRecSignal _) => .error .attrError
            | r => r
    | _ => .error .typeError
  termination_by structural fuel

end

/-- Read one form from `code` and evaluate it the way `load` (line 128)
evaluates each form of a file: against the fresh global frame over the
builtins, with the tail flag false. -/
def runText (fuel depth : Nat) (code : List Char) : Except Err LispObject := do
  let stx ← read code
  let (v, _) ← eval_lisp fuel depth stx initScope initStore false
  pure v

/-! ### Specification-side definitions

The definitions below are *not* translations of the source; they render the
specification's wording, for comparison with the source-translated
definitions above. -/

/-- Spec-side: the frame chain visible from a scope pointer, innermost
first. The fuel mirrors the bound used by the evaluator's lookup. -/
def scopeChain (st : Store) : Nat → Option Nat → List Frame
  | 0, _ => []
  | _ + 1, none => []
  | f + 1, some i =>
    match st.frames.get? i with
    | none => []
    | some fr => fr :: scopeChain st f fr.parent

/-- Spec-side rendering of the symbol rule: the first frame of the chain
containing the key wins; `Empty` when no frame does. -/
def specLookup (st : Store) (scope : Option Nat) (name : List Char) : LispObject :=
  ((scopeChain st (st.frames.length + 1) scope).findSome?
    (fun fr => getEntry fr.entries (.sym name))).getD .nil

/-- Spec-side: evaluate an argument list left to right, returning the
values as a proper chain in source order. -/
def evalArgsLTR (fuel depth : Nat) (args : LispObject) (scope : Option Nat)
    (st : Store) : Except Err (LispObject × Store) :=
  match fuel with
  | 0 => .error .fuelOut
  | f + 1 =>
    match args with
    | .nil => pure (.nil, st)
    | .pair a rest => do
      let (v, st1) ← eval_lisp f depth a scope st false
      let (vs, st2) ← evalArgsLTR f depth rest scope st1
      pure (.pair v vs, st2)
    | _ => .error .typeError

/-- A proper chain: ends in `nil`. -/
def isProper : LispObject → Bool
  | .nil => true
  | .pair _ d => isProper d
  | _ => false

/-- Spec-side: the elements along a cdr chain. -/
def chainElems : LispObject → List LispObject
  | .pair a d => a :: chainElems d
  | _ => []

/-- Spec-side: the terminal of a cdr chain. -/
def chainTerm : LispObject → LispObject
  | .pair _ d => chainTerm d
  | t => t

/-- `' '.join`. -/
def joinSpace : List (List Char) → List Char
  | [] => []
  | [x] => x
  | x :: y :: rest => x ++ ' ' :: joinSpace (y :: rest)

/-- Spec-side: the dot-and-terminal suffix the printer emits for a chain
terminal — present exactly when the terminal is a symbol. -/
def dotPart : LispObject → List (List Char)
  | .sym s => [['.'], s]
  | _ => []

/-- Decidable validity for the round-trip claim: proper lists whose leaves
are symbols (nonempty runs of atom characters) and nonnegative integers; the
flag selects list position (`true`) versus element position (`false`). -/
def validB : Bool → LispObject → Bool
  | true, .nil => true
  | true, .pair a d => validB false a && validB true d
  | true, _ => false
  | false, .sym s => !s.isEmpty && s.all atomChar
  | false, .num n => decide (0 ≤ n)
  | false, .nil => true
  | false, .pair a d => validB false a && validB true d
  | false, .proc _ => false

mutual

/-- Spec-side: the token sequence denoting a value (canonical integer
literals, one token per atom, parentheses around lists). -/
def sexpToks : LispObject → List (List Char)
  | .sym s => [s]
  | .num n => [intChars n]
  | .nil => [['('], [')']]
  | .pair a d => ['('] :: (sexpToks a ++ sexpToksRest d)
  | .proc _ => []

def sexpToksRest : LispObject → List (List Char)
  | .pair a d => sexpToks a ++ sexpToksRest d
  | _ => [[')']]

end

mutual

/-- Fuel accounting for the reader lemmas: the number of `form`/`listTail`
calls needed to parse the token sequence of a value (an atom costs one
`form` call; a list costs one `form` call plus its tail's cost). -/
def needFuel : LispObject → Nat
  | .sym _ => 1
  | .num _ => 1
  | .nil => 2
  | .pair a d => 2 + needFuel a + needTail d
  | .proc _ => 2

/-- One `listTail` call per element (plus that element's `form` cost) and
one for the closing parenthesis. -/
def needTail : LispObject → Nat
  | .pair a d => 1 + needFuel a + needTail d
  | _ => 1

end

/-- Erase all whitespace: two texts equal "up to whitespace normalization"
in any reading of that phrase have equal erasures. -/
def stripWs (s : List Char) : List Char := s.filter (fun c => !c.isWhitespace)

/-- A separator context for the lexing lemmas: the suffix is empty or starts
with a character that cannot extend an atom or digit run — exactly the
shapes (`)` or space) the printer produces after an element. -/
def sepOk : List Char → Bool
  | [] => true
  | c :: _ => c = ')' || c = ' '

/-- The self-tail-recursive test program: a closure whose last body
expression is a direct call to itself, walking the quoted list. -/
def tailLoopProg (listText : String) : List Char :=
  ("((lambda () (define loop (lambda (l) (if (= l (quote ())) (quote done) " ++
   "(loop (cdr l))))) (loop (quote (" ++ listText ++ ")))))").data

/-! ## Theorems -/

/-- C1: the claim says a direct self tail call iterates in bounded (O(1))
additional native call depth. In the code the trampoline is dead —
`current_procedure = procedure` (line 56) assigns a function-local (no
`global` declaration), so the line-54 guard either short-circuits (closures
created with `tail=False`, the only invocable kind) or raises
UnboundLocalError (closures created with `tail=True`) and `TailRecursion`
is never raised. Hence every iteration of a self tail call costs fresh
native depth: one list element more makes the same program need strictly
more depth (here 3 levels per iteration), and a `tail=True` closure dies on
entry. This refutes the bounded-depth claim; summing 1..100000 this way
exhausts CPython's recursion limit long before completing. -/
theorem claim_c1_self_tail_call_grows_stack :
    runText 10000 12 (tailLoopProg "a") = .ok (.sym "done".data) ∧
    runText 10000 12 (tailLoopProg "a a") = .error .recursionError ∧
    runText 10000 15 (tailLoopProg "a a") = .ok (.sym "done".data) ∧
    runText 10000 21 (tailLoopProg "a a a a a") = .error .recursionError ∧
    runText 10000 22 (tailLoopProg "a a a a a") = .ok (.sym "done".data) ∧
    (do
      let stx ← read "(lambda (x) x)".data
      let (fv, st1) ← eval_lisp 50 50 stx initScope initStore true
      apply_proc 50 50 fv (.pair .nil .nil) st1) = .error .unboundLocal :=
  ⟨rfl, rfl, rfl, rfl, rfl, rfl⟩

/-- C2, counterexample: the claim says a malformed special form returns
Empty and raises no error. But `(define x)` fails the `define` pattern and
falls through to the application case (a pair matches `[fn, args]`), which
evaluates `x`, evaluates the unbound `define` to `None`, and calls it:
TypeError, not Empty. -/
theorem claim_c2_counterexample :
    runText 1000 100 "(define x)".data = .error .typeError := rfl

/-- C2, amended: a malformed special form that is still a pair is evaluated
as an ordinary application — its elements are evaluated and the operator
value called, which raises TypeError when that value is not callable (the
usual case, the head symbol being unbound) — while only non-pair,
non-atom forms (the Empty form itself, procedure values) reach the default
case and yield Empty without error. -/
theorem claim_c2_amended :
    runText 1000 100 "(define x)".data = .error .typeError ∧
    runText 1000 100 "(if (quote a))".data = .error .typeError ∧
    runText 1000 100 "(quote)".data = .error .typeError ∧
    runText 1000 100 "(let)".data = .error .typeError ∧
    runText 1000 100 "(lambda)".data = .error .typeError ∧
    runText 1000 100 "()".data = .ok .nil ∧
    (∀ fuel depth scope st tl, eval_lisp (fuel + 1) (depth + 1) .nil scope st tl = .ok (.nil, st)) :=
  ⟨rfl, rfl, rfl, rfl, rfl, rfl, fun _ _ _ _ _ => rfl⟩

/-- C3, counterexample: the claim says applying a proper-parameter-list
closure signals no arity error for *any* argument count. With fewer
arguments than parameters, `car, args = args` (line 85) unpacks `None`:
TypeError, and the body is never evaluated. -/
theorem claim_c3_counterexample :
    runText 1000 100 "((lambda (a b) (quote r)) (quote x))".data = .error .typeError := rfl

/-- C3, amended: with a proper (Empty-terminated) parameter list, surplus
arguments are silently ignored and the call proceeds, but *missing*
arguments are not tolerated: the pairwise unpacking of an exhausted argument
list raises a host TypeError and the body is not evaluated. -/
theorem claim_c3_amended :
    runText 1000 100 "((lambda (a) a) (quote x) (quote y))".data = .ok (.sym ['x']) ∧
    runText 1000 100 "((lambda (a b) b) (quote x) (quote y))".data = .ok (.sym ['y']) ∧
    runText 1000 100 "((lambda (a b) (quote r)) (quote x))".data = .error .typeError :=
  ⟨rfl, rfl, rfl⟩

/-- C4: the claim says a bare-symbol improper tail of the parameter list is
bound to the remaining arguments. In the code, line 88 writes
`scope[0][name] = args` where `name` still holds the *last pairwise
parameter* — so with parameters `(a . b)` and arguments `(x y)`, `b` stays
unbound (evaluates to Empty) and `a` is overwritten with the rest list
`(y)`; with a bare-symbol parameter list, `name` was never assigned and the
invocation raises UnboundLocalError. -/
theorem claim_c4_rest_parameter_misbound :
    runText 1000 100 "((lambda (a . b) b) (quote x) (quote y))".data = .ok .nil ∧
    runText 1000 100 "((lambda (a . b) a) (quote x) (quote y))".data
      = .ok (.pair (.sym ['y']) .nil) ∧
    runText 1000 100 "((lambda args args) (quote x))".data = .error .unboundLocal :=
  ⟨rfl, rfl, rfl⟩

/-- C6, counterexample: the claim says a non-Empty terminal cdr of any kind
(symbol, integer, procedure) is printed after a dot. Line 113 tests
`isinstance(datum, str)` only, so the integer terminal of `(1 . 2)` is
silently dropped: the printed text is `(1)`, not `(1 . 2)`. -/
theorem claim_c6_counterexample :
    repr_lisp (.pair (.num 1) (.num 2)) = "(1)".data := rfl

/-- C7, counterexample: the claim says every absent closing token raises a
SyntaxError. An unmatched opening parenthesis at end of input instead
raises AttributeError: `form` falls through to `self.token.isnumeric()`
with the exhausted (`None`) lookahead. -/
theorem claim_c7_counterexample :
    read "(1 2".data = .error .attrError := rfl

/-- C7, amended: only `_expect(')')` after a dotted tail raises SyntaxError
(whether the next token is wrong or the input is exhausted); running off the
end of the input anywhere else — e.g. an unmatched opening parenthesis —
raises a host AttributeError from the `None` lookahead instead. -/
theorem claim_c7_amended :
    read "(a . b".data = .error .syntaxErr ∧
    read "(a . b c)".data = .error .syntaxErr ∧
    read "(1 2".data = .error .attrError ∧
    read "(".data = .error .attrError ∧
    read "'".data = .error .attrError :=
  ⟨rfl, rfl, rfl, rfl, rfl⟩

/-- C8: the claim says `read_many` yields every top-level form, stopping
only at end of input, a top-level `()` included. But `iter(self.form, None)`
uses the very value of `()` as its sentinel: the iteration stops at the
first top-level `()` without yielding it (here, the following `(quote a)`
is never read), and at genuine end of input `form` raises AttributeError
instead of stopping. -/
theorem claim_c8_read_many_sentinel :
    read_many "() (quote a)".data = .ok [] ∧
    read_many "(quote a) (quote b)".data = .error .attrError ∧
    read_many "(quote a) ()".data
      = .ok [.pair (.sym "quote".data) (.pair (.sym ['a']) .nil)] :=
  ⟨rfl, rfl, rfl⟩

/-- The evaluator's lookup loop computes the first hit over the
materialized frame chain. -/
theorem lookupLoop_eq_chain (st : Store) (name : List Char) :
    ∀ (fuel : Nat) (scope : Option Nat),
      lookupLoop st fuel scope name =
        ((scopeChain st fuel scope).findSome?
          (fun fr => getEntry fr.entries (.sym name))).getD .nil := by
  intro fuel
  induction fuel with
  | zero => intro scope; rfl
  | succ f ih =>
    intro scope
    cases scope with
    | none => rfl
    | some i =>
      simp only [lookupLoop, scopeChain]
      cases h : st.frames.get? i with
      | none => rfl
      | some fr =>
        cases hg : getEntry fr.entries (.sym name) with
        | some v => simp [List.findSome?_cons, hg]
        | none => simp [List.findSome?_cons, hg, ih fr.parent]

/-- C9: evaluating a symbol walks the frame chain innermost-to-outermost;
the first frame containing the key provides the value, and when no frame
contains it the result is Empty — always an ordinary `.ok` return (never an
error), leaving the store untouched. -/
theorem claim_c9_symbol_lookup (fuel depth : Nat) (name : List Char)
    (scope : Option Nat) (st : Store) (tl : Bool) :
    eval_lisp (fuel + 1) (depth + 1) (.sym name) scope st tl
      = .ok (specLookup st scope name, st) := by
  simp only [eval_lisp, specLookup, lookupLoop_eq_chain]
  rfl

theorem bindE_ok {α β : Type} (a : α) (f : α → Except Err β) :
    (Except.ok a : Except Err α) >>= f = f a := rfl

theorem bindE_err {α β : Type} (e : Err) (f : α → Except Err β) :
    (Except.error e : Except Err α) >>= f = .error e := rfl

theorem pureE {α : Type} (a : α) : (pure a : Except Err α) = .ok a := rfl

/-- The source's reversed-accumulator argument loop computes exactly the
left-to-right evaluation, reverse-prepended onto the accumulator. -/
theorem evalArgsRev_eq_LTR :
    ∀ (fuel depth : Nat) (args acc : LispObject) (scope : Option Nat) (st : Store),
      evalArgsRev fuel depth args acc scope st =
        match evalArgsLTR fuel depth args scope st with
        | .error e => .error e
        | .ok (vs, st') => .ok (revApp vs acc, st') := by
  intro fuel
  induction fuel with
  | zero => intro depth args acc scope st; rfl
  | succ f ih =>
    intro depth args acc scope st
    cases args with
    | nil => rfl
    | sym s => rfl
    | num n => rfl
    | proc p => rfl
    | pair a rest =>
      simp only [evalArgsRev, evalArgsLTR]
      cases h : eval_lisp f depth a scope st false with
      | error e => rfl
      | ok p =>
        obtain ⟨v, st1⟩ := p
        simp only [bindE_ok]
        rw [ih]
        cases hL : evalArgsLTR f depth rest scope st1 with
        | error e => rfl
        | ok q => obtain ⟨vs, st2⟩ := q; rfl

/-- `evalArgsRev_eq_LTR`, specialized to a successful argument pass. -/
theorem evalArgsRev_ok {fuel depth : Nat} {args acc : LispObject}
    {scope : Option Nat} {st : Store} {vs : LispObject} {st' : Store}
    (h : evalArgsLTR fuel depth args scope st = .ok (vs, st')) :
    evalArgsRev fuel depth args acc scope st = .ok (revApp vs acc, st') := by
  rw [evalArgsRev_eq_LTR, h]

/-- `evalArgsRev_eq_LTR`, specialized to a failing argument pass. -/
theorem evalArgsRev_err {fuel depth : Nat} {args acc : LispObject}
    {scope : Option Nat} {st : Store} {e : Err}
    (h : evalArgsLTR fuel depth args scope st = .error e) :
    evalArgsRev fuel depth args acc scope st = .error e := by
  rw [evalArgsRev_eq_LTR, h]

/-- Left-to-right argument evaluation always builds a proper chain. -/
theorem evalArgsLTR_proper :
    ∀ (fuel depth : Nat) (args : LispObject) (scope : Option Nat) (st : Store)
      (vs : LispObject) (st' : Store),
      evalArgsLTR fuel depth args scope st = .ok (vs, st') → isProper vs = true := by
  intro fuel
  induction fuel with
  | zero => intro depth args scope st vs st' h; exact absurd h (by simp [evalArgsLTR])
  | succ f ih =>
    intro depth args scope st vs st' h
    cases args with
    | nil =>
      simp only [evalArgsLTR, pureE, Except.ok.injEq, Prod.mk.injEq] at h
      rw [← h.1]; rfl
    | sym s => exact absurd h (by simp [evalArgsLTR])
    | num n => exact absurd h (by simp [evalArgsLTR])
    | proc p => exact absurd h (by simp [evalArgsLTR])
    | pair a rest =>
      simp only [evalArgsLTR] at h
      cases h1 : eval_lisp f depth a scope st false with
      | error e => rw [h1, bindE_err] at h; simp at h
      | ok p =>
        obtain ⟨v, st1⟩ := p
        rw [h1, bindE_ok] at h
        cases h2 : evalArgsLTR f depth rest scope st1 with
        | error e => rw [h2, bindE_err] at h; simp at h
        | ok q =>
          obtain ⟨ws, st2⟩ := q
          rw [h2, bindE_ok] at h
          simp only [pureE, Except.ok.injEq, Prod.mk.injEq] at h
          rw [← h.1]
          simpa [isProper] using ih depth rest scope st1 ws st2 h2

/-- Double reversal of a proper chain, generalized over the seed. -/
theorem revApp_revApp (l : LispObject) :
    isProper l = true → ∀ acc, revApp (revApp l acc) .nil = revApp acc l := by
  induction l with
  | nil => intro _ acc; rfl
  | sym s => intro h; exact absurd h (by simp [isProper])
  | num n => intro h; exact absurd h (by simp [isProper])
  | proc p => intro h; exact absurd h (by simp [isProper])
  | pair x r ihx ihr =>
    intro h acc
    have hr : isProper r = true := by simpa [isProper] using h
    show revApp (revApp r (.pair x acc)) .nil = revApp acc (.pair x r)
    rw [ihr hr (.pair x acc)]
    rfl

/-- C10: an application form — any pair matching none of the special-form
shapes — evaluates all argument expressions first, left to right in source
order, and only then evaluates the operator expression, calling its value
on the argument chain; consequently store effects of the arguments are
visible to the operator lookup. -/
theorem claim_c10_args_before_operator (fuel depth : Nat) (fn args : LispObject)
    (scope : Option Nat) (st : Store) (tl : Bool)
    (h : specialShape fn args = none) :
    eval_lisp (fuel + 1) (depth + 1) (.pair fn args) scope st tl
      = (do
          let (vs, st1) ← evalArgsLTR fuel depth args scope st
          let (fv, st2) ← eval_lisp fuel depth fn scope st1 false
          apply_proc fuel depth fv vs st2) := by
  cases hL : evalArgsLTR fuel depth args scope st with
  | error e =>
    simp only [eval_lisp, h, evalArgsRev_err hL, hL, bindE_err]
  | ok p =>
    obtain ⟨vs, st1⟩ := p
    have hp : isProper vs = true := evalArgsLTR_proper fuel depth args scope st vs st1 hL
    have hrev : revApp (revApp vs .nil) .nil = vs := by
      rw [revApp_revApp vs hp .nil]; rfl
    simp only [eval_lisp, h, evalArgsRev_ok hL, hL, bindE_ok, hrev]

/-- Witness for C10 at a concrete application, `(+ 1 2)`. -/
theorem claim_c10_witness :
    specialShape (.sym ['+']) (.pair (.num 1) (.pair (.num 2) .nil)) = none ∧
    eval_lisp 101 101 (.pair (.sym ['+']) (.pair (.num 1) (.pair (.num 2) .nil)))
        initScope initStore false
      = (do
          let (vs, st1) ← evalArgsLTR 100 100 (.pair (.num 1) (.pair (.num 2) .nil))
            initScope initStore
          let (fv, st2) ← eval_lisp 100 100 (.sym ['+']) initScope st1 false
          apply_proc 100 100 fv vs st2) :=
  ⟨rfl, claim_c10_args_before_operator 100 100 (.sym ['+'])
    (.pair (.num 1) (.pair (.num 2) .nil)) initScope initStore false rfl⟩

/-- The chain continuation printed by `reprRest` is the space-joined tail of
the element renderings, followed by the dot suffix exactly for a symbol
terminal. -/
theorem joinSpace_reprRest (d : LispObject) :
    ∀ x : List Char,
      joinSpace (x :: ((chainElems d).map repr_lisp ++ dotPart (chainTerm d)))
        = x ++ reprRest d := by
  induction d with
  | nil => intro x; simp [chainElems, chainTerm, dotPart, joinSpace, reprRest]
  | num n => intro x; simp [chainElems, chainTerm, dotPart, joinSpace, reprRest]
  | proc p => intro x; simp [chainElems, chainTerm, dotPart, joinSpace, reprRest]
  | sym s => intro x; simp [chainElems, chainTerm, dotPart, joinSpace, reprRest]
  | pair b d' ihb ihd =>
    intro x
    show x ++ ' ' :: joinSpace (repr_lisp b ::
          ((chainElems d').map repr_lisp ++ dotPart (chainTerm d')))
        = x ++ reprRest (.pair b d')
    rw [ihd (repr_lisp b)]
    rfl

theorem digitChar_isDigit {n : Nat} (h : n < 10) : (digitChar n).isDigit = true := by
  interval_cases n <;> decide

theorem digitVal_digitChar {n : Nat} (h : n < 10) : digitVal (digitChar n) = n := by
  interval_cases n <;> decide

theorem natDigitsAux_fuel :
    ∀ (n f g : Nat) (acc : List Char), n < f → n < g →
      natDigitsAux f n acc = natDigitsAux g n acc := by
  intro n
  induction n using Nat.strong_induction_on with
  | _ n ih =>
    intro f g acc hf hg
    cases f with
    | zero => omega
    | succ f' =>
      cases g with
      | zero => omega
      | succ g' =>
        simp only [natDigitsAux]
        by_cases h10 : n < 10
        · simp [h10]
        · simp only [if_neg h10]
          have hd : n / 10 < n := Nat.div_lt_self (by omega) (by norm_num)
          exact ih (n / 10) hd f' g' _ (by omega) (by omega)

theorem natDigitsAux_append :
    ∀ (n f : Nat) (acc : List Char), n < f →
      natDigitsAux f n acc = natDigitsAux f n [] ++ acc := by
  intro n
  induction n using Nat.strong_induction_on with
  | _ n ih =>
    intro f acc hf
    cases f with
    | zero => omega
    | succ f' =>
      simp only [natDigitsAux]
      by_cases h10 : n < 10
      · simp [h10]
      · simp only [if_neg h10]
        have hd : n / 10 < n := Nat.div_lt_self (by omega) (by norm_num)
        have hfd : n / 10 < f' := by omega
        rw [ih (n / 10) hd f' _ hfd, ih (n / 10) hd f' [digitChar (n % 10)] hfd]
        simp

theorem natDigits_step {n : Nat} (h : ¬ n < 10) :
    natDigits n = natDigits (n / 10) ++ [digitChar (n % 10)] := by
  have hd : n / 10 < n := Nat.div_lt_self (by omega) (by norm_num)
  have h1 : natDigits n = natDigitsAux n (n / 10) [digitChar (n % 10)] := by
    simp only [natDigits, natDigitsAux]
    rw [if_neg h]
  rw [h1, natDigitsAux_append (n / 10) n _ hd,
    natDigitsAux_fuel (n / 10) n (n / 10 + 1) [] hd (by omega)]
  rfl

theorem natDigits_base {n : Nat} (h : n < 10) : natDigits n = [digitChar n] := by
  simp only [natDigits, natDigitsAux]
  rw [if_pos h]

theorem natDigits_spec (n : Nat) :
    natDigits n ≠ [] ∧ (natDigits n).all Char.isDigit = true := by
  induction n using Nat.strong_induction_on with
  | _ n ih =>
    by_cases h10 : n < 10
    · rw [natDigits_base h10]
      exact ⟨by simp, by simp [digitChar_isDigit h10]⟩
    · rw [natDigits_step h10]
      have hd : n / 10 < n := Nat.div_lt_self (by omega) (by norm_num)
      obtain ⟨h1, h2⟩ := ih (n / 10) hd
      refine ⟨by simp, ?_⟩
      simp [List.all_append, h2, digitChar_isDigit (Nat.mod_lt n (by norm_num))]

theorem digitsToNat_natDigits (n : Nat) : digitsToNat (natDigits n) = n := by
  induction n using Nat.strong_induction_on with
  | _ n ih =>
    by_cases h10 : n < 10
    · rw [natDigits_base h10]
      simp [digitsToNat, digitVal_digitChar h10]
    · rw [natDigits_step h10]
      have hd : n / 10 < n := Nat.div_lt_self (by omega) (by norm_num)
      have hrec := ih (n / 10) hd
      simp only [digitsToNat, List.foldl_append] at hrec ⊢
      rw [hrec]
      simp only [List.foldl]
      rw [digitVal_digitChar (Nat.mod_lt n (by norm_num))]
      omega

theorem isnumeric_natDigits (n : Nat) : isnumeric (natDigits n) = true := by
  obtain ⟨h1, h2⟩ := natDigits_spec n
  simp [isnumeric, h1, h2]

theorem atomChar_classes {c : Char} (h : atomChar c = true) :
    delimChar c = false ∧ c.isWhitespace = false ∧ c.isDigit = false := by
  simp only [atomChar, Bool.and_eq_true, Bool.not_eq_true'] at h
  exact ⟨h.1.1, h.1.2, h.2⟩

theorem isDigit_classes {c : Char} (h : c.isDigit = true) :
    delimChar c = false ∧ c.isWhitespace = false := by
  constructor
  · cases hc : delimChar c
    · rfl
    · exfalso
      simp only [delimChar, Bool.or_eq_true, decide_eq_true_eq] at hc
      rcases hc with ((h1 | h1) | h1) | h1 <;> subst h1 <;> exact absurd h (by decide)
  · cases hc : c.isWhitespace
    · rfl
    · exfalso
      simp only [Char.isWhitespace, Bool.or_eq_true, decide_eq_true_eq] at hc
      rcases hc with ((h1 | h1) | h1) | h1 <;> subst h1 <;> exact absurd h (by decide)

/-- A maximal atom run: scanning atom characters extends the current atom
token, and a separator (or end of input) flushes it. -/
theorem lexAux_atom_run :
    ∀ (s0 : List Char) (t s : List Char), (∀ c ∈ s0, atomChar c = true) →
      sepOk s = true →
      lexAux (some (.atom t)) (s0 ++ s) = (t ++ s0) :: lexAux none s := by
  intro s0
  induction s0 with
  | nil =>
    intro t s hall hs
    match s with
    | [] => simp [lexAux, flushTok]
    | c :: s' =>
      have hc : c = ')' ∨ c = ' ' := by
        have := hs
        simp only [sepOk, Bool.or_eq_true, decide_eq_true_eq] at this
        exact this
      rcases hc with h | h <;> subst h <;>
        simp [lexAux, flushTok, delimChar, Char.isWhitespace]
  | cons c rest ih =>
    intro t s hall hs
    obtain ⟨h1, h2, h3⟩ := atomChar_classes (hall c (by simp))
    show lexAux (some (.atom t)) (c :: (rest ++ s)) = _
    simp only [lexAux, h1, h2, h3, Bool.false_eq_true, if_false]
    rw [ih (t ++ [c]) s (fun x hx => hall x (by simp [hx])) hs]
    simp

/-- A maximal digit run, analogously. -/
theorem lexAux_digit_run :
    ∀ (s0 : List Char) (t s : List Char), (∀ c ∈ s0, c.isDigit = true) →
      sepOk s = true →
      lexAux (some (.digits t)) (s0 ++ s) = (t ++ s0) :: lexAux none s := by
  intro s0
  induction s0 with
  | nil =>
    intro t s hall hs
    match s with
    | [] => simp [lexAux, flushTok]
    | c :: s' =>
      have hc : c = ')' ∨ c = ' ' := by
        have := hs
        simp only [sepOk, Bool.or_eq_true, decide_eq_true_eq] at this
        exact this
      rcases hc with h | h <;> subst h <;>
        simp [lexAux, flushTok, delimChar, Char.isWhitespace]
  | cons c rest ih =>
    intro t s hall hs
    have h3 : c.isDigit = true := hall c (by simp)
    obtain ⟨h1, h2⟩ := isDigit_classes h3
    show lexAux (some (.digits t)) (c :: (rest ++ s)) = _
    simp only [lexAux, h1, h2, h3, Bool.false_eq_true, if_false, if_true]
    rw [ih (t ++ [c]) s (fun x hx => hall x (by simp [hx])) hs]
    simp

/-- Entering an atom run from the bare scanner state. -/
theorem lexAux_atom_entry (s0 : List Char) (s : List Char) (h0 : s0 ≠ [])
    (hall : ∀ c ∈ s0, atomChar c = true) (hs : sepOk s = true) :
    lexAux none (s0 ++ s) = s0 :: lexAux none s := by
  match s0, h0 with
  | c :: rest, _ =>
    obtain ⟨h1, h2, h3⟩ := atomChar_classes (hall c (by simp))
    show lexAux none (c :: (rest ++ s)) = _
    simp only [lexAux, h1, h2, h3, Bool.false_eq_true, if_false, flushTok,
      List.nil_append]
    exact lexAux_atom_run rest [c] s (fun x hx => hall x (by simp [hx])) hs

/-- Entering a digit run from the bare scanner state. -/
theorem lexAux_digit_entry (s0 : List Char) (s : List Char) (h0 : s0 ≠ [])
    (hall : ∀ c ∈ s0, c.isDigit = true) (hs : sepOk s = true) :
    lexAux none (s0 ++ s) = s0 :: lexAux none s := by
  match s0, h0 with
  | c :: rest, _ =>
    have h3 : c.isDigit = true := hall c (by simp)
    obtain ⟨h1, h2⟩ := isDigit_classes h3
    show lexAux none (c :: (rest ++ s)) = _
    simp only [lexAux, h1, h2, h3, Bool.false_eq_true, if_false, if_true, flushTok,
      List.nil_append]
    exact lexAux_digit_run rest [c] s (fun x hx => hall x (by simp [hx])) hs

/-- For a valid list continuation, the printed continuation followed by the
closing parenthesis starts with a separator character. -/
theorem sepOk_reprRest (d : LispObject) (hd : validB true d = true) (s : List Char) :
    sepOk (reprRest d ++ ')' :: s) = true := by
  cases d with
  | nil => rfl
  | pair a d' => rfl
  | sym s0 => simp [validB] at hd
  | num n => simp [validB] at hd
  | proc p => simp [validB] at hd

/-- Lexing the printed form of a valid value recovers its token sequence,
in any separator context. -/
theorem lexPrint (v : LispObject) :
    (validB false v = true → ∀ s, sepOk s = true →
      lexAux none (repr_lisp v ++ s) = sexpToks v ++ lexAux none s) ∧
    (validB true v = true → ∀ s,
      lexAux none (reprRest v ++ ')' :: s) = sexpToksRest v ++ lexAux none s) := by
  induction v with
  | sym s0 =>
    refine ⟨?_, fun hv => by simp [validB] at hv⟩
    intro hv s hs
    simp only [validB, Bool.and_eq_true, Bool.not_eq_true'] at hv
    have h0 : s0 ≠ [] := by simpa [List.isEmpty_iff] using hv.1
    have hall : ∀ c ∈ s0, atomChar c = true := List.all_eq_true.mp hv.2
    show lexAux none (s0 ++ s) = [s0] ++ lexAux none s
    rw [lexAux_atom_entry s0 s h0 hall hs]
    rfl
  | num n =>
    refine ⟨?_, fun hv => by simp [validB] at hv⟩
    intro hv s hs
    cases n with
    | ofNat m =>
      obtain ⟨h1, h2⟩ := natDigits_spec m
      show lexAux none (natDigits m ++ s) = [natDigits m] ++ lexAux none s
      rw [lexAux_digit_entry (natDigits m) s h1 (List.all_eq_true.mp h2) hs]
      rfl
    | negSucc m =>
      simp only [validB, decide_eq_true_eq, Int.negSucc_not_nonneg] at hv
  | nil =>
    constructor
    · intro _ s hs
      show lexAux none ('(' :: ')' :: s) = [['('], [')']] ++ lexAux none s
      simp [lexAux, delimChar, flushTok]
    · intro _ s
      show lexAux none (')' :: s) = [[')']] ++ lexAux none s
      simp [lexAux, delimChar, flushTok]
  | proc p =>
    exact ⟨fun hv => by simp [validB] at hv, fun hv => by simp [validB] at hv⟩
  | pair a d iha ihd =>
    have hsplit : validB false a = true → validB true d = true → ∀ s,
        lexAux none ((repr_lisp a ++ reprRest d) ++ ')' :: s)
          = sexpToks a ++ (sexpToksRest d ++ lexAux none s) := by
      intro hva hvd s
      rw [List.append_assoc]
      rw [iha.1 hva (reprRest d ++ ')' :: s) (sepOk_reprRest d hvd s)]
      rw [ihd.2 hvd s]
    constructor
    · intro hv s hs
      have hv' : validB false a = true ∧ validB true d = true := by
        simpa [validB, Bool.and_eq_true] using hv
      show lexAux none ('(' :: (((repr_lisp a ++ reprRest d) ++ [')']) ++ s))
          = ['('] :: (sexpToks a ++ sexpToksRest d) ++ lexAux none s
      have hstep : lexAux none ('(' :: (((repr_lisp a ++ reprRest d) ++ [')']) ++ s))
          = ['('] :: lexAux none (((repr_lisp a ++ reprRest d) ++ [')']) ++ s) := by
        simp [lexAux, delimChar, flushTok]
      have hlist : ((repr_lisp a ++ reprRest d) ++ [')']) ++ s
          = (repr_lisp a ++ reprRest d) ++ ')' :: s := by simp
      rw [hstep, hlist, hsplit hv'.1 hv'.2 s]
      simp
    · intro hv s
      have hv' : validB false a = true ∧ validB true d = true := by
        simpa [validB, Bool.and_eq_true] using hv
      show lexAux none (' ' :: ((repr_lisp a ++ reprRest d) ++ ')' :: s))
          = (sexpToks a ++ sexpToksRest d) ++ lexAux none s
      have hstep : lexAux none (' ' :: ((repr_lisp a ++ reprRest d) ++ ')' :: s))
          = lexAux none ((repr_lisp a ++ reprRest d) ++ ')' :: s) := by
        simp [lexAux, delimChar, flushTok, Char.isWhitespace]
      rw [hstep, hsplit hv'.1 hv'.2 s]
      simp

/-- The first token of a valid element is never a closing parenthesis or a
dot. -/
theorem sexpToks_head (v : LispObject) (hv : validB false v = true) :
    ∃ t0 ts0, sexpToks v = t0 :: ts0 ∧ t0 ≠ [')'] ∧ t0 ≠ ['.'] := by
  cases v with
  | sym s0 =>
    refine ⟨s0, [], rfl, ?_, ?_⟩ <;>
      exact fun he => by subst he; exact absurd hv (by decide)
  | num n =>
    cases n with
    | ofNat m =>
      refine ⟨natDigits m, [], rfl, ?_, ?_⟩ <;>
        exact fun he => by
          have hall := (natDigits_spec m).2
          rw [he] at hall
          exact absurd hall (by decide)
    | negSucc m =>
      simp only [validB, decide_eq_true_eq, Int.negSucc_not_nonneg] at hv
  | nil => exact ⟨['('], [[')']], rfl, by decide, by decide⟩
  | pair a d => exact ⟨['('], sexpToks a ++ sexpToksRest d, rfl, by decide, by decide⟩
  | proc p => simp [validB] at hv

/-- Parsing the token sequence of a valid value yields exactly that value,
with any token remainder untouched, given sufficient fuel. -/
theorem parseRT (v : LispObject) :
    (validB false v = true → ∀ fuel rest, needFuel v ≤ fuel →
      form fuel (sexpToks v ++ rest) = .ok (v, rest)) ∧
    (validB true v = true → ∀ fuel acc rest, needTail v ≤ fuel →
      listTail fuel acc (sexpToksRest v ++ rest) = .ok (revApp acc v, rest)) := by
  induction v with
  | sym s0 =>
    refine ⟨?_, fun hv => by simp [validB] at hv⟩
    intro hv fuel rest hf
    have hne1 : s0 ≠ ['('] := fun he => by subst he; exact absurd hv (by decide)
    have hne2 : s0 ≠ ['\''] := fun he => by subst he; exact absurd hv (by decide)
    have hnum : isnumeric s0 = false := by
      simp only [validB, Bool.and_eq_true, Bool.not_eq_true'] at hv
      match s0, hv with
      | c0 :: s0', hv =>
        have h3 := (atomChar_classes (List.all_eq_true.mp hv.2 c0 (by simp))).2.2
        simp [isnumeric, h3]
    cases fuel with
    | zero => exact absurd hf (by simp [needFuel])
    | succ f =>
      show form (f + 1) (s0 :: rest) = .ok (.sym s0, rest)
      simp [form, accept, hne1, hne2, hnum, pureE]
  | num n =>
    refine ⟨?_, fun hv => by simp [validB] at hv⟩
    intro hv fuel rest hf
    cases n with
    | negSucc m =>
      simp only [validB, decide_eq_true_eq, Int.negSucc_not_nonneg] at hv
    | ofNat m =>
      obtain ⟨hne0, hall⟩ := natDigits_spec m
      have hne1 : natDigits m ≠ ['('] := fun he => by
        rw [he] at hall; exact absurd hall (by decide)
      have hne2 : natDigits m ≠ ['\''] := fun he => by
        rw [he] at hall; exact absurd hall (by decide)
      cases fuel with
      | zero => exact absurd hf (by simp [needFuel])
      | succ f =>
        show form (f + 1) (natDigits m :: rest) = .ok (.num (Int.ofNat m), rest)
        simp [form, accept, hne1, hne2, isnumeric_natDigits m,
          digitsToNat_natDigits m, pureE]
  | nil =>
    constructor
    · intro _ fuel rest hf
      have hf' : 2 ≤ fuel := hf
      cases fuel with
      | zero => omega
      | succ f =>
        cases f with
        | zero => omega
        | succ f' =>
          show form (f' + 1 + 1) (['('] :: [')'] :: rest) = .ok (.nil, rest)
          simp [form, listTail, accept, revApp, pureE]
    · intro _ fuel acc rest hf
      have hf' : 1 ≤ fuel := hf
      cases fuel with
      | zero => omega
      | succ f =>
        show listTail (f + 1) acc ([')'] :: rest) = .ok (revApp acc .nil, rest)
        simp [listTail, accept, pureE]
  | proc p =>
    exact ⟨fun hv => by simp [validB] at hv, fun hv => by simp [validB] at hv⟩
  | pair a d iha ihd =>
    have key : ∀ fuel acc rest, validB false a = true → validB true d = true →
        needTail (.pair a d) ≤ fuel →
        listTail fuel acc (sexpToksRest (.pair a d) ++ rest)
          = .ok (revApp acc (.pair a d), rest) := by
      intro fuel acc rest hva hvd hf
      have hf' : 1 + needFuel a + needTail d ≤ fuel := hf
      cases fuel with
      | zero => omega
      | succ f =>
        obtain ⟨t0, ts0, hts, hne1, hne2⟩ := sexpToks_head a hva
        have hacc1 : accept [')'] ((sexpToks a ++ sexpToksRest d) ++ rest) = none := by
          rw [hts]
          show accept [')'] (t0 :: ((ts0 ++ sexpToksRest d) ++ rest)) = none
          simp [accept, hne1]
        have hacc2 : accept ['.'] ((sexpToks a ++ sexpToksRest d) ++ rest) = none := by
          rw [hts]
          show accept ['.'] (t0 :: ((ts0 ++ sexpToksRest d) ++ rest)) = none
          simp [accept, hne2]
        have hform : form f ((sexpToks a ++ sexpToksRest d) ++ rest)
            = .ok (a, sexpToksRest d ++ rest) := by
          rw [List.append_assoc]
          exact iha.1 hva f (sexpToksRest d ++ rest) (by omega)
        have htail := ihd.2 hvd f (.pair a acc) rest (by omega)
        show listTail (f + 1) acc ((sexpToks a ++ sexpToksRest d) ++ rest) = _
        simp only [listTail, hacc1, hacc2, hform, bindE_ok, htail]
        rfl
    constructor
    · intro hv fuel rest hf
      have hv' : validB false a = true ∧ validB true d = true := by
        simpa [validB, Bool.and_eq_true] using hv
      have hf' : 2 + needFuel a + needTail d ≤ fuel := hf
      cases fuel with
      | zero => omega
      | succ f =>
        have hk := key f .nil rest hv'.1 hv'.2 (by
          rw [show needTail (.pair a d) = 1 + needFuel a + needTail d from rfl]
          omega)
        calc form (f + 1) (sexpToks (.pair a d) ++ rest)
            = listTail f .nil ((sexpToks a ++ sexpToksRest d) ++ rest) := by
              show form (f + 1) (['('] :: ((sexpToks a ++ sexpToksRest d) ++ rest)) = _
              simp [form, accept]
          _ = .ok (revApp .nil (.pair a d), rest) := hk
          _ = .ok (.pair a d, rest) := rfl
    · intro hv fuel acc rest hf
      have hv' : validB false a = true ∧ validB true d = true := by
        simpa [validB, Bool.and_eq_true] using hv
      exact key fuel acc rest hv'.1 hv'.2 hf

/-- The fuel needed by `parseRT` is within the `2 * tokens + 4` budget that
`read` supplies. -/
theorem needBound (v : LispObject) :
    (validB false v = true → needFuel v + 1 ≤ 2 * (sexpToks v).length) ∧
    (validB true v = true → needTail v ≤ 2 * (sexpToksRest v).length) := by
  induction v with
  | sym s0 =>
    refine ⟨fun _ => ?_, fun hv => by simp [validB] at hv⟩
    simp only [needFuel, sexpToks, List.length_cons, List.length_nil]
    omega
  | num n =>
    refine ⟨fun _ => ?_, fun hv => by simp [validB] at hv⟩
    simp only [needFuel, sexpToks, List.length_cons, List.length_nil]
    omega
  | nil =>
    refine ⟨fun _ => ?_, fun _ => ?_⟩ <;>
      · simp only [needFuel, needTail, sexpToks, sexpToksRest, List.length_cons,
          List.length_nil]
        omega
  | proc p =>
    exact ⟨fun hv => by simp [validB] at hv, fun hv => by simp [validB] at hv⟩
  | pair a d iha ihd =>
    constructor
    · intro hv
      have hv' : validB false a = true ∧ validB true d = true := by
        simpa [validB, Bool.and_eq_true] using hv
      have h1 := iha.1 hv'.1
      have h2 := ihd.2 hv'.2
      simp only [needFuel, sexpToks, List.length_cons, List.length_append]
      omega
    · intro hv
      have hv' : validB false a = true ∧ validB true d = true := by
        simpa [validB, Bool.and_eq_true] using hv
      have h1 := iha.1 hv'.1
      have h2 := ihd.2 hv'.2
      simp only [needTail, sexpToksRest, List.length_append]
      omega

theorem validB_true_to_false (v : LispObject) (h : validB true v = true) :
    validB false v = true := by
  cases v with
  | nil => rfl
  | pair a d => exact h
  | sym s0 => simp [validB] at h
  | num n => simp [validB] at h
  | proc p => simp [validB] at h

/-- C5, counterexample: the claim quantifies over every text that is a
proper-list S-expression of symbols and integers. The text `(007)` is one —
`007` is an integer token — yet `int('007')` reads it as `7` and printing
gives `(7)`: the round trip changes a non-whitespace character, so the claim
as stated fails (the two texts differ even after erasing all whitespace). -/
theorem claim_c5_counterexample :
    read "(007)".data = .ok (.pair (.num 7) .nil) ∧
    repr_lisp (.pair (.num 7) .nil) = "(7)".data ∧
    stripWs "(7)".data ≠ stripWs "(007)".data :=
  ⟨rfl, rfl, by decide⟩

/-- C5, amended: for every text that is a proper-list S-expression
containing only symbols and integers written canonically (no leading
zeros) and no quote sugar — formalized as: the text's token sequence is the
token sequence of some valid value — reading the text succeeds with that
value and printing it reproduces the text up to whitespace normalization
(the printed text has the same token sequence, whitespace being the only
freedom the lexer ignores). -/
theorem claim_c5_amended (v : LispObject) (text : List Char)
    (hv : validB true v = true) (ht : lexer text = sexpToks v) :
    read text = .ok v ∧ lexer (repr_lisp v) = lexer text := by
  have hv' : validB false v = true := validB_true_to_false v hv
  constructor
  · show (form (2 * (lexer text).length + 4) (lexer text)).map Prod.fst = .ok v
    rw [ht]
    have hb := (needBound v).1 hv'
    have hp := (parseRT v).1 hv' (2 * (sexpToks v).length + 4) [] (by omega)
    rw [List.append_nil] at hp
    rw [hp]
    rfl
  · rw [ht]
    have hl := (lexPrint v).1 hv' [] rfl
    rw [List.append_nil] at hl
    show lexAux none (repr_lisp v) = sexpToks v
    rw [hl, show lexAux none [] = [] from rfl]
    simp

/-- Witness for C5-amended at the value `(foo 42)` and the text
`"(foo  42)"` (whitespace differing from the canonical print). -/
theorem claim_c5_amended_witness :
    (validB true (.pair (.sym ['f','o','o']) (.pair (.num 42) .nil)) = true ∧
     lexer "(foo  42)".data
       = sexpToks (.pair (.sym ['f','o','o']) (.pair (.num 42) .nil))) ∧
    (read "(foo  42)".data = .ok (.pair (.sym ['f','o','o']) (.pair (.num 42) .nil)) ∧
     lexer (repr_lisp (.pair (.sym ['f','o','o']) (.pair (.num 42) .nil)))
       = lexer "(foo  42)".data) :=
  ⟨⟨by decide, by decide⟩,
    claim_c5_amended (.pair (.sym ['f','o','o']) (.pair (.num 42) .nil))
      "(foo  42)".data (by decide) (by decide)⟩

/-- C6, amended: printing a Pair walks the cdr chain and emits the printed
elements space-joined inside parentheses, and emits a literal `.` followed
by the printed terminal exactly when the terminal cdr is a *symbol*; any
other non-Empty terminal (integer or procedure) is silently omitted. -/
theorem claim_c6_amended (a d : LispObject) :
    repr_lisp (.pair a d)
      = '(' :: (joinSpace ((chainElems (.pair a d)).map repr_lisp
          ++ dotPart (chainTerm (.pair a d))) ++ [')']) := by
  show '(' :: (repr_lisp a ++ reprRest d) ++ [')']
      = '(' :: (joinSpace (repr_lisp a :: ((chainElems d).map repr_lisp
          ++ dotPart (chainTerm d))) ++ [')'])
  rw [joinSpace_reprRest d (repr_lisp a)]
  simp

end Minilisp
